import Mathlib

/-!
Verification of the ao evaluator core (kernel/eval/evaluator.cpp).

The scalar, derivative and interval kernels, the push/pop pruning
protocol, the opcode override (`getOpcode`) and the evaluator
construction scan are embedded shallowly over `ℚ`.  Machine floats are
modelled by rationals: overflow, rounding and NaN behaviour are outside
the embedding, and so are the transcendental opcodes (SIN, COS, TAN,
ASIN, ACOS, ATAN, EXP, ATAN2, SQRT, NTH_ROOT), whose kernels delegate to
libm / boost and have irrational values; the corresponding kernel cases
are `none` below.  Intervals with an infinite endpoint (produced by DIV
when the divisor straddles zero) are modelled by `none`, an unbounded
interval.
-/

/-- The opcode taxonomy, mirroring `Opcode::Opcode` as used by
`evaluator.cpp` (nullary variables and constants, unary and binary
operations, the pruning substitutes `DUMMY_A`/`DUMMY_B`, and the
sentinels). -/
inductive Opcode where
  | CONST | VAR_X | VAR_Y | VAR_Z | AFFINE_VEC
  | ADD | MUL | MIN | MAX | SUB | DIV | ATAN2 | POW | NTH_ROOT | MOD | NANFILL
  | SQUARE | SQRT | NEG | ABS | SIN | COS | TAN | ASIN | ACOS | ATAN | EXP
  | DUMMY_A | DUMMY_B
  | INVALID | LAST_OP
deriving DecidableEq

/-- Truncation toward zero, the rounding used by C `fmod` (and by the
float-to-int conversion applied to `b.lower()` in the POW interval
case). -/
def ratTrunc (q : ℚ) : ℤ :=
  if 0 ≤ q then ⌊q⌋ else -⌊-q⌋

/-- `std::fmod a b` over the rational embedding:
`a - b * trunc (a / b)`. -/
def fmodQ (a b : ℚ) : ℚ :=
  a - b * (ratTrunc (a / b) : ℚ)

/-- The fuel-indexed model of the MOD adjustment loop
`while (out[i] < 0) out[i] += b[i];` from the scalar value kernel.
`none` models non-termination of the C loop (fuel exhausted while the
value is still negative, which for this loop means it never exits). -/
def modLoop (b : ℚ) : ℕ → ℚ → Option ℚ
  | fuel, r =>
    if r < 0 then
      match fuel with
      | 0 => none
      | Nat.succ f => modLoop b f (r + b)
    else some r

/-- One element of the scalar value kernel (the first `clause` overload
in evaluator.cpp): `out[i]` as a function of `a[i]` and `b[i]`.
Transcendental opcodes delegate to libm and are outside the rational
embedding; the `assert(false)` opcodes are likewise `none`.  The MOD
case is `fmod` followed by the adjustment loop, with fuel 2: for the
loop, one added `b` suffices whenever it terminates, and with `b ≤ 0`
and a negative remainder it never exits, which fuel 2 also reports as
`none`. -/
def clauseValue : Opcode → ℚ → ℚ → Option ℚ
  | .ADD, a, b => some (a + b)
  | .MUL, a, b => some (a * b)
  | .MIN, a, b => some (min a b)
  | .MAX, a, b => some (max a b)
  | .SUB, a, b => some (a - b)
  | .DIV, a, b => some (a / b)
  | .MOD, a, b => modLoop b 2 (fmodQ a b)
  | .NANFILL, a, _ => some a
  | .SQUARE, a, _ => some (a * a)
  | .NEG, a, _ => some (-a)
  | .ABS, a, _ => some |a|
  | .DUMMY_A, a, _ => some a
  | .DUMMY_B, _, b => some b
  | _, _, _ => none

/-- A gradient triple `(dx, dy, dz)`. -/
structure Grad where
  dx : ℚ
  dy : ℚ
  dz : ℚ
deriving DecidableEq

def Grad.add (g h : Grad) : Grad := ⟨g.dx + h.dx, g.dy + h.dy, g.dz + h.dz⟩

def Grad.sub (g h : Grad) : Grad := ⟨g.dx - h.dx, g.dy - h.dy, g.dz - h.dz⟩

def Grad.neg (g : Grad) : Grad := ⟨-g.dx, -g.dy, -g.dz⟩

def Grad.scale (c : ℚ) (g : Grad) : Grad := ⟨c * g.dx, c * g.dy, c * g.dz⟩

/-- The gradient part of the scalar derivative kernel (the second
`clause` overload in evaluator.cpp), per element: the output gradient as
a function of the operand values and gradients.  SQRT and the
transcendentals are outside the rational embedding (`none`). -/
def clauseDeriv : Opcode → ℚ → Grad → ℚ → Grad → Option Grad
  | .ADD, _, ag, _, bg => some (ag.add bg)
  | .MUL, av, ag, bv, bg => some ((Grad.scale av bg).add (Grad.scale bv ag))
  | .MIN, av, ag, bv, bg => some (if av < bv then ag else bg)
  | .MAX, av, ag, bv, bg => some (if av < bv then bg else ag)
  | .SUB, _, ag, _, bg => some (ag.sub bg)
  | .DIV, av, ag, bv, bg =>
      some (Grad.scale (1 / (bv * bv)) ((Grad.scale bv ag).sub (Grad.scale av bg)))
  | .MOD, _, ag, _, _ => some ag
  | .NANFILL, _, ag, _, _ => some ag
  | .SQUARE, av, ag, _, _ => some (Grad.scale (2 * av) ag)
  | .NEG, _, ag, _, _ => some ag.neg
  | .ABS, av, ag, _, _ => some (if av < 0 then ag.neg else ag)
  | .DUMMY_A, _, ag, _, _ => some ag
  | .DUMMY_B, _, _, _, bg => some bg
  | _, _, _, _, _ => none

/-- One element of the scalar derivative kernel: the source first runs
the value kernel (`clause(op, av, bv, ov, count)`) and then fills the
gradient; operands and result are (value, gradient) pairs. -/
def clauseDerivs (op : Opcode) (a b : ℚ × Grad) : Option (ℚ × Grad) :=
  match clauseValue op a.1 b.1, clauseDeriv op a.1 a.2 b.1 b.2 with
  | some v, some g => some (v, g)
  | _, _ => none

/-- `Evaluator::getOpcode`: the opcode reported to the kernels, with the
clause's native opcode overridden when an operand is disabled.  The
operand arguments carry `none` for a null operand pointer and
`some d` for an operand clause whose `disabled` field is `d`. -/
def getOpcode (op : Opcode) (aDis bDis : Option Bool) : Opcode :=
  if aDis = some true then .DUMMY_B
  else if bDis = some true then .DUMMY_A
  else op

/-- A closed rational interval, the endpoint pair of `Interval`. -/
structure Ivl where
  lo : ℚ
  hi : ℚ
deriving DecidableEq

/-- An interval value: `none` models an interval with an infinite
endpoint (only produced by DIV on a divisor straddling zero, and then
propagated). -/
abbrev IntervalQ := Option Ivl

/-- Membership of a rational in an interval value; everything lies in
the unbounded interval. -/
def IntervalQ.holds : IntervalQ → ℚ → Prop
  | none, _ => True
  | some I, x => I.lo ≤ x ∧ x ≤ I.hi

instance (I : IntervalQ) (x : ℚ) : Decidable (I.holds x) :=
  match I with
  | none => isTrue trivial
  | some J => inferInstanceAs (Decidable (J.lo ≤ x ∧ x ≤ J.hi))

def iAdd (a b : Ivl) : Ivl := ⟨a.lo + b.lo, a.hi + b.hi⟩

def iSub (a b : Ivl) : Ivl := ⟨a.lo - b.hi, a.hi - b.lo⟩

def iMul (a b : Ivl) : Ivl :=
  ⟨min (min (a.lo * b.lo) (a.lo * b.hi)) (min (a.hi * b.lo) (a.hi * b.hi)),
   max (max (a.lo * b.lo) (a.lo * b.hi)) (max (a.hi * b.lo) (a.hi * b.hi))⟩

def iMin (a b : Ivl) : Ivl := ⟨min a.lo b.lo, min a.hi b.hi⟩

def iMax (a b : Ivl) : Ivl := ⟨max a.lo b.lo, max a.hi b.hi⟩

def iNeg (a : Ivl) : Ivl := ⟨-a.hi, -a.lo⟩

def iAbs (a : Ivl) : Ivl :=
  if 0 ≤ a.lo then a
  else if a.hi ≤ 0 then ⟨-a.hi, -a.lo⟩
  else ⟨0, max (-a.lo) a.hi⟩

def iSquare (a : Ivl) : Ivl :=
  if 0 ≤ a.lo then ⟨a.lo * a.lo, a.hi * a.hi⟩
  else if a.hi ≤ 0 then ⟨a.hi * a.hi, a.lo * a.lo⟩
  else ⟨0, max (a.lo * a.lo) (a.hi * a.hi)⟩

/-- Interval division: a divisor straddling zero yields the unbounded
interval, otherwise the endpoint quotients bound the result. -/
def iDiv (a b : Ivl) : IntervalQ :=
  if b.lo ≤ 0 ∧ 0 ≤ b.hi then none
  else some
    ⟨min (min (a.lo / b.lo) (a.lo / b.hi)) (min (a.hi / b.lo) (a.hi / b.hi)),
     max (max (a.lo / b.lo) (a.lo / b.hi)) (max (a.hi / b.lo) (a.hi / b.hi))⟩

/-- The MOD interval from the source: `Interval(0.0f, b.upper())`,
unconditionally ("YOLO" in the source).  Note this ignores `a` entirely
and is inverted when `b.hi < 0`. -/
def iMod (b : Ivl) : Ivl := ⟨0, b.hi⟩

/-- `boost::numeric::pow` of an interval by an integer exponent, for
nonnegative exponents (negative exponents go through interval inversion
and may be unbounded; they are outside this embedding). -/
def ipow (a : Ivl) (n : ℤ) : IntervalQ :=
  if 0 ≤ n then
    if n % 2 = 1 then some ⟨a.lo ^ n.toNat, a.hi ^ n.toNat⟩
    else if 0 ≤ a.lo then some ⟨a.lo ^ n.toNat, a.hi ^ n.toNat⟩
    else if a.hi ≤ 0 then some ⟨a.hi ^ n.toNat, a.lo ^ n.toNat⟩
    else some ⟨0, max (a.lo ^ n.toNat) (a.hi ^ n.toNat)⟩
  else none

def liftI (f : Ivl → Ivl → Ivl) : IntervalQ → IntervalQ → IntervalQ
  | some a, some b => some (f a b)
  | _, _ => none

def liftJ (f : Ivl → Ivl → IntervalQ) : IntervalQ → IntervalQ → IntervalQ
  | some a, some b => f a b
  | _, _ => none

/-- The interval kernel (the `clause(Opcode, Interval, Interval)`
overload in evaluator.cpp).  The outer `Option` marks cases outside the
rational embedding (transcendentals, NTH_ROOT, negative POW exponents)
and the `assert(false)` opcodes; every supported case computes a value,
in particular POW uses only `b.lower()` (truncated to an integer by the
implicit conversion) and raises nothing, and NANFILL returns `a` since
rationals are never NaN. -/
def clauseInterval (op : Opcode) (a b : IntervalQ) : Option IntervalQ :=
  match op with
  | .ADD => some (liftI iAdd a b)
  | .MUL => some (liftI iMul a b)
  | .MIN => some (liftI iMin a b)
  | .MAX => some (liftI iMax a b)
  | .SUB => some (liftI iSub a b)
  | .DIV => some (liftJ iDiv a b)
  | .POW =>
      match a, b with
      | some A, some B => some (ipow A (ratTrunc B.lo))
      | _, _ => none
  | .MOD => some (b.map iMod)
  | .NANFILL => some a
  | .SQUARE => some (a.map iSquare)
  | .NEG => some (a.map iNeg)
  | .ABS => some (a.map iAbs)
  | .DUMMY_A => some a
  | .DUMMY_B => some b
  | _ => none

/-!  ## Expression trees for interval soundness

A tree over the arithmetic opcodes of the evaluator.  The evaluator
runs a rank-ordered tape compiled from the DAG; denotationally each
clause computes the kernel of its opcode on its operands' results, which
is the structural recursion below.  `DUMMY_A`/`DUMMY_B` are internal
pruning substitutes and never occur in user trees.
-/
inductive ATree where
  | X | Y | Z
  | const (v : ℚ)
  | add (a b : ATree)
  | sub (a b : ATree)
  | mul (a b : ATree)
  | minT (a b : ATree)
  | maxT (a b : ATree)
  | div (a b : ATree)
  | mod (a b : ATree)
  | nanfill (a b : ATree)
  | neg (a : ATree)
  | abs (a : ATree)
  | square (a : ATree)
deriving DecidableEq

/-- Scalar (point) evaluation of a tree, each node through the scalar
value kernel of its opcode.  `none` propagates a non-terminating MOD
adjustment loop. -/
def evalPoint : ATree → ℚ → ℚ → ℚ → Option ℚ
  | .X, x, _, _ => some x
  | .Y, _, y, _ => some y
  | .Z, _, _, z => some z
  | .const v, _, _, _ => some v
  | .add a b, x, y, z => do clauseValue .ADD (← evalPoint a x y z) (← evalPoint b x y z)
  | .sub a b, x, y, z => do clauseValue .SUB (← evalPoint a x y z) (← evalPoint b x y z)
  | .mul a b, x, y, z => do clauseValue .MUL (← evalPoint a x y z) (← evalPoint b x y z)
  | .minT a b, x, y, z => do clauseValue .MIN (← evalPoint a x y z) (← evalPoint b x y z)
  | .maxT a b, x, y, z => do clauseValue .MAX (← evalPoint a x y z) (← evalPoint b x y z)
  | .div a b, x, y, z => do clauseValue .DIV (← evalPoint a x y z) (← evalPoint b x y z)
  | .mod a b, x, y, z => do clauseValue .MOD (← evalPoint a x y z) (← evalPoint b x y z)
  | .nanfill a b, x, y, z => do clauseValue .NANFILL (← evalPoint a x y z) (← evalPoint b x y z)
  | .neg a, x, y, z => do clauseValue .NEG (← evalPoint a x y z) 0
  | .abs a, x, y, z => do clauseValue .ABS (← evalPoint a x y z) 0
  | .square a, x, y, z => do clauseValue .SQUARE (← evalPoint a x y z) 0

/-- Interval evaluation of a tree, each node through the interval kernel
of its opcode (`Evaluator::interval` runs exactly these kernel cases in
rank order).  A constant clause carries the degenerate interval. -/
def evalIval : ATree → IntervalQ → IntervalQ → IntervalQ → IntervalQ
  | .X, ix, _, _ => ix
  | .Y, _, iy, _ => iy
  | .Z, _, _, iz => iz
  | .const v, _, _, _ => some ⟨v, v⟩
  | .add a b, ix, iy, iz =>
      (clauseInterval .ADD (evalIval a ix iy iz) (evalIval b ix iy iz)).join
  | .sub a b, ix, iy, iz =>
      (clauseInterval .SUB (evalIval a ix iy iz) (evalIval b ix iy iz)).join
  | .mul a b, ix, iy, iz =>
      (clauseInterval .MUL (evalIval a ix iy iz) (evalIval b ix iy iz)).join
  | .minT a b, ix, iy, iz =>
      (clauseInterval .MIN (evalIval a ix iy iz) (evalIval b ix iy iz)).join
  | .maxT a b, ix, iy, iz =>
      (clauseInterval .MAX (evalIval a ix iy iz) (evalIval b ix iy iz)).join
  | .div a b, ix, iy, iz =>
      (clauseInterval .DIV (evalIval a ix iy iz) (evalIval b ix iy iz)).join
  | .mod a b, ix, iy, iz =>
      (clauseInterval .MOD (evalIval a ix iy iz) (evalIval b ix iy iz)).join
  | .nanfill a b, ix, iy, iz =>
      (clauseInterval .NANFILL (evalIval a ix iy iz) (evalIval b ix iy iz)).join
  | .neg a, ix, iy, iz =>
      (clauseInterval .NEG (evalIval a ix iy iz) none).join
  | .abs a, ix, iy, iz =>
      (clauseInterval .ABS (evalIval a ix iy iz) none).join
  | .square a, ix, iy, iz =>
      (clauseInterval .SQUARE (evalIval a ix iy iz) none).join

/-- `true` iff the tree contains no MOD node. -/
def noModT : ATree → Bool
  | .X | .Y | .Z | .const _ => true
  | .add a b | .sub a b | .mul a b | .minT a b | .maxT a b
  | .div a b | .nanfill a b => noModT a && noModT b
  | .mod _ _ => false
  | .neg a | .abs a | .square a => noModT a

/-!  ## Evaluator state: tape, rows, push/pop

The clause tape and row bookkeeping.  `row.hpp` / `clause.hpp` are not
part of the sources at hand; their behaviour is modelled from the spec.
Modelled from the spec: per its data-model section, a clause's
`disabled` state is "set by the pruning stack" and is "persistent across
push/pop frames via a count" — each row keeps its enabled clauses in the
prefix `[0, active)`, so a clause is disabled exactly when it sits
outside the active prefix of its row (clauses not in any row — X, Y, Z
and constants — are never disabled).  The push phase walks rows from the
highest rank down, enabling the live operands of each enabled clause
according to its pruning flag, then partitions each row's active prefix
so enabled clauses come first and pushes the previous count; the pop
phase restores each row's count from its stack.
-/

/-- The pruning classification computed by the interval pass: for
`MIN(a,b)`, `a.hi < b.lo` marks IGNORE_B and `b.hi < a.lo` marks
IGNORE_A; symmetric for MAX; `NONE` otherwise. -/
inductive PruneFlag where
  | keepBoth | ignoreA | ignoreB
deriving DecidableEq

/-- A tape clause: native opcode, operand tape indices (`none` for a
null operand pointer) and the pruning flag from the last interval
pass. -/
structure EClause where
  op : Opcode
  a : Option ℕ
  b : Option ℕ
  flag : PruneFlag

/-- A row of the tape: clause indices of one rank, the count of
currently enabled clauses, and the stack of saved counts. -/
structure ERow where
  clauses : List ℕ
  active : ℕ
  stack : List ℕ

/-- The evaluator: the clause tape, the rows (lowest rank first, as
iterated by the evaluation loops), and the root clause index. -/
structure EState where
  tape : ℕ → EClause
  rows : List ERow
  root : ℕ

/-- Whether clause `i` is currently disabled: it sits outside the active
prefix of its row. -/
def disabledB (s : EState) (i : ℕ) : Bool :=
  s.rows.any (fun r => (r.clauses.drop r.active).contains i)

/-- Evaluate one clause into the result store: look up the effective
opcode via `getOpcode` (consulting the operands' disabled state) and run
the kernel `K` on the operand results.  `V` is the per-clause result
type (float batch, gradient batch, or interval), `K` the corresponding
kernel dispatch. -/
def stepClause (V : Type) (K : Opcode → Option V → Option V → V)
    (tape : ℕ → EClause) (dis : ℕ → Bool) (st : ℕ → V) (i : ℕ) : ℕ → V :=
  fun j =>
    if j = i then
      K (getOpcode (tape i).op ((tape i).a.map dis) ((tape i).b.map dis))
        ((tape i).a.map st) ((tape i).b.map st)
    else st j

/-- Evaluate the active prefix of one row, in order. -/
def runRow (V : Type) (K : Opcode → Option V → Option V → V)
    (tape : ℕ → EClause) (dis : ℕ → Bool) (st : ℕ → V) (r : ERow) : ℕ → V :=
  (r.clauses.take r.active).foldl (stepClause V K tape dis) st

/-- Evaluate a list of rows in order, lowest rank first. -/
def runRows (V : Type) (K : Opcode → Option V → Option V → V)
    (tape : ℕ → EClause) (dis : ℕ → Bool) (rows : List ERow) (st : ℕ → V) : ℕ → V :=
  rows.foldl (runRow V K tape dis) st

/-- One evaluator call (`values`, `derivs` or `interval`, depending on
`V` and `K`): sweep every row's active clauses in rank order, producing
the final result store; the caller reads the root clause's result. -/
def Evaluator.evalCall (V : Type) (K : Opcode → Option V → Option V → V)
    (s : EState) (st : ℕ → V) : ℕ → V :=
  runRows V K s.tape (disabledB s) s.rows st

/-- The live operands of a clause under its pruning flag: both for
`NONE`, only `a` when B is ignored, only `b` when A is ignored. -/
def liveOps (c : EClause) : List ℕ :=
  match c.flag with
  | .keepBoth => c.a.toList ++ c.b.toList
  | .ignoreA => c.b.toList
  | .ignoreB => c.a.toList

/-- The downward walk over one row: each enabled clause of the active
prefix enables its live operands (which live in lower rows). -/
def walkRow (tape : ℕ → EClause) (en : List ℕ) (r : ERow) : List ℕ :=
  (r.clauses.take r.active).foldl
    (fun en i => if en.contains i then en ++ liveOps (tape i) else en) en

/-- The set of clauses left enabled by a push: start from the root and
walk rows from the highest rank down. -/
def enabledSet (s : EState) : List ℕ :=
  s.rows.reverse.foldl (walkRow s.tape) [s.root]

/-- Push, per row: partition the active prefix so clauses of the enabled
set come first, shrink `active` to their number, and save the previous
count on the row's stack.  Clauses beyond the old prefix (pruned by an
enclosing push) are untouched. -/
def pushRow (en : List ℕ) (r : ERow) : ERow :=
  let pre := r.clauses.take r.active
  ⟨pre.filter (fun i => en.contains i) ++ pre.filter (fun i => !(en.contains i))
     ++ r.clauses.drop r.active,
   (pre.filter (fun i => en.contains i)).length,
   r.active :: r.stack⟩

/-- `Evaluator::push`: mark everything ignored, enable the root, walk
down enabling live operands, then partition each row. -/
def Evaluator.push (s : EState) : EState :=
  { s with rows := s.rows.map (pushRow (enabledSet s)) }

/-- Pop, per row: restore the active count from the row's stack (the
permutation is not undone). -/
def popRow (r : ERow) : ERow :=
  match r.stack with
  | [] => r
  | a :: t => ⟨r.clauses, a, t⟩

/-- `Evaluator::pop`: restore every row's active count. -/
def Evaluator.pop (s : EState) : EState :=
  { s with rows := s.rows.map popRow }

/-- Well-formedness of an evaluator state, as established by
construction: each row's active count is within bounds, and no clause of
a row's active prefix has an operand in that same prefix (operands live
in strictly lower ranks, or are variable/constant clauses outside the
rows). -/
def rowWF (tape : ℕ → EClause) (r : ERow) : Bool :=
  decide (r.active ≤ r.clauses.length) &&
  (r.clauses.take r.active).all (fun i =>
    ((tape i).a.all (fun j => !((r.clauses.take r.active).contains j))) &&
    ((tape i).b.all (fun j => !((r.clauses.take r.active).contains j))))

def stateWF (s : EState) : Bool :=
  s.rows.all (rowWF s.tape)

/-- `Evaluator::utilization`: one sweep accumulating every row's size
and active count, returning (total active) / (total size). -/
def Evaluator.utilization (rows : List ERow) : ℚ :=
  let p := rows.foldl
    (fun (t : ℚ × ℚ) r => (t.1 + (r.clauses.length : ℚ), t.2 + (r.active : ℚ)))
    (0, 0)
  p.2 / p.1

/-- The spec's reading of utilization: the mean over rows of
(active / size). -/
def specMeanUtilization (rows : List ERow) : ℚ :=
  (rows.foldl (fun (t : ℚ) r => t + ((r.active : ℚ) / (r.clauses.length : ℚ))) 0)
    / (rows.length : ℚ)

/-- The chunk count of the vectorized paths: `count = (count - 1)/8 + 1`
computed in `size_t`, i.e. with subtraction wrapping modulo `2^64`. -/
def nVec (count : ℕ) : ℕ :=
  (count + 2 ^ 64 - 1) % 2 ^ 64 / 8 + 1

/-!  ## Evaluator construction

The constructor scan from `Evaluator::Evaluator`: collapse and
`findConnected` come from the cache (`cache.cpp` is not among the
sources at hand; `findConnected` is modelled from the spec as the
transitive closure of operands from the root).  The scan iterates cache
entries in key order (constants first, then ascending rank), emplacing a
clause for every connected constant and every connected clause of
positive rank; rank-0 non-constants (the variables) were already
emplaced as the X, Y, Z clauses.  `clauses.at(...)` on a missing operand
throws (modelled as `OperandMissing`); the final
`assert(clauses[root.id])` failing is the construction failure the spec
calls `MalformedTree`.
-/

/-- One cache entry: node id, opcode, constant value, operand ids
(0 = null) and rank. -/
structure CEntry where
  id : ℕ
  op : Opcode
  value : ℚ
  lhs : ℕ
  rhs : ℕ
  rank : ℕ
deriving DecidableEq

def lookupEntry (entries : List CEntry) (i : ℕ) : Option CEntry :=
  entries.find? (fun e => e.id == i)

def childIds (entries : List CEntry) (i : ℕ) : List ℕ :=
  match lookupEntry entries i with
  | some e => [e.lhs, e.rhs].filter (fun j => j != 0)
  | none => []

/-- Modelled from the spec: `findConnected` returns the ids reachable
from the root through operand edges (a forward DFS; the fuel is the
number of cache entries, enough for any acyclic cache). -/
def reach (entries : List CEntry) : ℕ → ℕ → List ℕ
  | 0, i => [i]
  | Nat.succ f, i =>
      i :: (childIds entries i).foldl (fun acc j => acc ++ reach entries f j) []

def findConnected (entries : List CEntry) (root : ℕ) : List ℕ :=
  reach entries entries.length root

inductive BuildError where
  | OperandMissing
  | MalformedTree
deriving DecidableEq

/-- `newClause`: emplace a clause for cache id `t`, looking the
operands up in the id-to-clause map (`clauses.at` throws on a missing
operand; the map starts holding the null clause for id 0). -/
def newClause (entries : List CEntry) (emplaced : List ℕ) (t : ℕ) :
    Except BuildError (List ℕ) :=
  match lookupEntry entries t with
  | some e =>
      if emplaced.contains e.lhs && emplaced.contains e.rhs then
        .ok (emplaced ++ [t])
      else .error .OperandMissing
  | none => .error .OperandMissing

/-- The constant-and-row scan over the cache entries, in key order:
emplace connected constants, emplace connected clauses of positive rank,
skip the rank-0 variables. -/
def scanEntries (entries : List CEntry) (connected : List ℕ) :
    List ℕ → List CEntry → Except BuildError (List ℕ)
  | emplaced, [] => .ok emplaced
  | emplaced, e :: rest =>
      if connected.contains e.id then
        if e.op = Opcode.CONST then
          match newClause entries emplaced e.id with
          | .ok emp => scanEntries entries connected emp rest
          | .error err => .error err
        else if 0 < e.rank then
          match newClause entries emplaced e.id with
          | .ok emp => scanEntries entries connected emp rest
          | .error err => .error err
        else scanEntries entries connected emplaced rest
      else scanEntries entries connected emplaced rest

/-- Everything in `Evaluator::Evaluator` before the final root check:
make the X, Y, Z clauses, then scan the cache entries, returning the ids
that were given clauses. -/
def buildScan (entries : List CEntry) (xId yId zId rootId : ℕ) :
    Except BuildError (List ℕ) := do
  let connected := findConnected entries rootId
  let emp ← newClause entries [0] xId
  let emp ← newClause entries emp yId
  let emp ← newClause entries emp zId
  scanEntries entries connected emp entries

/-- `Evaluator::Evaluator`: run the scan, then check that a clause was
emplaced for the root id — `assert(clauses[root.id])`, whose failure is
the construction failure the spec names `MalformedTree`. -/
def buildEvaluator (entries : List CEntry) (xId yId zId rootId : ℕ) :
    Except BuildError (List ℕ) :=
  match buildScan entries xId yId zId rootId with
  | .ok emp => if emp.contains rootId then .ok emp else .error .MalformedTree
  | .error err => .error err

/-!  ## Theorems -/

/-- The spec's reading of the POW interval case: demand a degenerate
exponent interval and raise `InvalidOperand` otherwise.  Stated for
comparison against the kernel actually implemented. -/
inductive IntervalError where
  | InvalidOperand
deriving DecidableEq

/-- Modelled from the spec: interval POW as the spec describes it,
erroring on a non-degenerate exponent. -/
def specPowInterval (a b : Ivl) : Except IntervalError IntervalQ :=
  if b.lo = b.hi then .ok (ipow a (ratTrunc b.lo)) else .error .InvalidOperand

/-- Claim C4, counterexample: at `a = [2,2]`, `b = [1,3]` the exponent
interval is non-degenerate, yet the interval kernel silently computes
`pow(a, b.lower()) = [2,2]` instead of raising; the spec-side kernel
errors, so the two disagree at this input. -/
theorem C4_counterexample :
    (⟨1, 3⟩ : Ivl).lo ≠ (⟨1, 3⟩ : Ivl).hi ∧
    clauseInterval .POW (some ⟨2, 2⟩) (some ⟨1, 3⟩) = some (some ⟨2, 2⟩) ∧
    specPowInterval ⟨2, 2⟩ ⟨1, 3⟩ = .error .InvalidOperand :=
  ⟨by decide, by decide, rfl⟩

/-- Claim C4 (amended): the interval POW kernel never raises — it
computes a result from `b.lower()` alone, so any two exponent intervals
with the same lower endpoint give the same result. -/
theorem C4_pow_uses_lower_only (A B C : Ivl) (h : B.lo = C.lo) :
    clauseInterval .POW (some A) (some B) = clauseInterval .POW (some A) (some C) ∧
    (clauseInterval .POW (some A) (some B)).isSome = true := by
  constructor
  · simp only [clauseInterval, h]
  · simp only [clauseInterval, Option.isSome_some]

/-- Witness for C4: the kernel result at exponent interval `[1,3]`
matches the one at `[1,1]` and is a value, not an error. -/
theorem C4_pow_uses_lower_only_witness :
    (⟨1, 3⟩ : Ivl).lo = (⟨1, 1⟩ : Ivl).lo ∧
    (clauseInterval .POW (some ⟨2, 2⟩) (some ⟨1, 3⟩) =
       clauseInterval .POW (some ⟨2, 2⟩) (some ⟨1, 1⟩) ∧
     (clauseInterval .POW (some ⟨2, 2⟩) (some ⟨1, 3⟩)).isSome = true) :=
  ⟨rfl, C4_pow_uses_lower_only ⟨2, 2⟩ ⟨1, 3⟩ ⟨1, 1⟩ rfl⟩

/-- Claim C3, counterexample: at a tie (`av = bv = 1`) the MAX
derivative kernel takes operand a's gradient, not operand b's as the
claim states for both MIN and MAX. -/
theorem C3_counterexample :
    clauseDerivs .MAX (1, ⟨1, 2, 3⟩) (1, ⟨4, 5, 6⟩) = some (1, ⟨1, 2, 3⟩) ∧
    (⟨1, 2, 3⟩ : Grad) ≠ ⟨4, 5, 6⟩ := by
  refine ⟨by decide, by decide⟩

/-- Claim C3 (amended): the MIN/MAX derivative kernels take the gradient
of the operand whose value is selected, the comparison being
`av < bv` in both; hence ties break toward operand b for MIN and toward
operand a for MAX. -/
theorem C3_minmax_gradient (av bv : ℚ) (ag bg : Grad) :
    clauseDerivs .MIN (av, ag) (bv, bg) = some (min av bv, if av < bv then ag else bg) ∧
    clauseDerivs .MAX (av, ag) (bv, bg) = some (max av bv, if av < bv then bg else ag) ∧
    (av = bv →
      clauseDerivs .MIN (av, ag) (bv, bg) = some (av, bg) ∧
      clauseDerivs .MAX (av, ag) (bv, bg) = some (av, ag)) := by
  refine ⟨rfl, rfl, fun h => ?_⟩
  subst h
  constructor
  · show some (min av av, if av < av then ag else bg) = _
    simp [lt_irrefl]
  · show some (max av av, if av < av then bg else ag) = _
    simp [lt_irrefl]

/-- Witness for C3: the tie case at `av = bv = 1`. -/
theorem C3_minmax_gradient_witness :
    clauseDerivs .MIN ((1 : ℚ), ⟨1, 2, 3⟩) (1, ⟨4, 5, 6⟩) = some (1, ⟨4, 5, 6⟩) ∧
    clauseDerivs .MAX ((1 : ℚ), ⟨1, 2, 3⟩) (1, ⟨4, 5, 6⟩) = some (1, ⟨1, 2, 3⟩) :=
  (C3_minmax_gradient 1 1 ⟨1, 2, 3⟩ ⟨4, 5, 6⟩).2.2 rfl

/-- Claim C5: whenever the constructor scan completes and no clause was
emplaced for the root id, construction fails — the
`assert(clauses[root.id])`, the failure the spec calls
`MalformedTree`. -/
theorem C5_root_missing_malformed (entries : List CEntry) (x y z root : ℕ)
    (l : List ℕ) (hscan : buildScan entries x y z root = .ok l)
    (hroot : l.contains root = false) :
    buildEvaluator entries x y z root = .error .MalformedTree := by
  unfold buildEvaluator
  rw [hscan]
  have hm : root ∉ l := by simpa using hroot
  simp [hm]

/-- Witness for C5: a connected cache whose root is a rank-0
`AFFINE_VEC` entry, which the scan skips, so no root clause exists. -/
theorem C5_root_missing_malformed_witness :
    buildScan [⟨1, .VAR_X, 0, 0, 0, 0⟩, ⟨2, .VAR_Y, 0, 0, 0, 0⟩,
               ⟨3, .VAR_Z, 0, 0, 0, 0⟩, ⟨4, .AFFINE_VEC, 0, 0, 0, 0⟩] 1 2 3 4 =
      .ok [0, 1, 2, 3] ∧
    buildEvaluator [⟨1, .VAR_X, 0, 0, 0, 0⟩, ⟨2, .VAR_Y, 0, 0, 0, 0⟩,
                    ⟨3, .VAR_Z, 0, 0, 0, 0⟩, ⟨4, .AFFINE_VEC, 0, 0, 0, 0⟩] 1 2 3 4 =
      .error .MalformedTree :=
  ⟨rfl, C5_root_missing_malformed _ 1 2 3 4 [0, 1, 2, 3] rfl rfl⟩

/-- Claim C7: the effective opcode is `DUMMY_B` when operand a exists
and is disabled, `DUMMY_A` when operand b exists and is disabled (and a
is not), the native opcode when neither is; and the `DUMMY_A`/`DUMMY_B`
kernels copy the named operand's value and gradient unchanged. -/
theorem C7_dummy_override (op : Opcode) (aD bD : Option Bool) (a b : ℚ × Grad) :
    (aD = some true → getOpcode op aD bD = .DUMMY_B) ∧
    (aD ≠ some true → bD = some true → getOpcode op aD bD = .DUMMY_A) ∧
    (aD ≠ some true → bD ≠ some true → getOpcode op aD bD = op) ∧
    clauseValue .DUMMY_A a.1 b.1 = some a.1 ∧
    clauseValue .DUMMY_B a.1 b.1 = some b.1 ∧
    clauseDerivs .DUMMY_A a b = some a ∧
    clauseDerivs .DUMMY_B a b = some b := by
  obtain ⟨av, ag⟩ := a
  obtain ⟨bv, bg⟩ := b
  exact ⟨fun h => by simp [getOpcode, h],
         fun h1 h2 => by simp [getOpcode, h1, h2],
         fun h1 h2 => by simp [getOpcode, h1, h2],
         rfl, rfl, rfl, rfl⟩

/-- Witness for C7: the three override cases at concrete flags. -/
theorem C7_dummy_override_witness :
    getOpcode .MIN (some true) none = .DUMMY_B ∧
    getOpcode .MIN none (some true) = .DUMMY_A ∧
    getOpcode .MIN (some false) (some false) = .MIN :=
  ⟨(C7_dummy_override .MIN (some true) none (0, ⟨0, 0, 0⟩) (0, ⟨0, 0, 0⟩)).1 rfl,
   (C7_dummy_override .MIN none (some true) (0, ⟨0, 0, 0⟩) (0, ⟨0, 0, 0⟩)).2.1
     (by decide) rfl,
   (C7_dummy_override .MIN (some false) (some false) (0, ⟨0, 0, 0⟩)
     (0, ⟨0, 0, 0⟩)).2.2.1 (by decide) (by decide)⟩

/-- Claim C9, counterexample: at `n = 0` the `size_t` computation
`(count - 1)/8 + 1` wraps around and yields `2^61` chunks, not
`⌈0/8⌉ = 0`. -/
theorem C9_counterexample :
    nVec 0 = 2305843009213693952 ∧ (0 + 7) / 8 = 0 ∧ nVec 0 ≠ (0 + 7) / 8 :=
  ⟨by decide, by decide, by decide⟩

/-- Claim C9 (amended): for every `1 ≤ n < 2^64` the chunk count is
`⌈n/8⌉`; at `n = 0` the unsigned wraparound yields `2^61` instead. -/
theorem C9_chunk_count (n : ℕ) (h1 : 1 ≤ n) (h2 : n < 2 ^ 64) :
    nVec n = (n + 7) / 8 := by
  unfold nVec
  omega

/-- Witness for C9: `n = 8` gives one chunk. -/
theorem C9_chunk_count_witness :
    1 ≤ 8 ∧ 8 < 2 ^ 64 ∧ nVec 8 = (8 + 7) / 8 ∧ nVec 8 = 1 :=
  ⟨by decide, by decide, C9_chunk_count 8 (by decide) (by decide), by decide⟩

/-- The paired accumulation of `Evaluator::utilization` computes the two
row sums. -/
lemma util_foldl_sums (rows : List ERow) (p : ℚ × ℚ) :
    rows.foldl
      (fun (t : ℚ × ℚ) r => (t.1 + (r.clauses.length : ℚ), t.2 + (r.active : ℚ))) p =
    (p.1 + (rows.map (fun r => (r.clauses.length : ℚ))).sum,
     p.2 + (rows.map (fun r => (r.active : ℚ))).sum) := by
  induction rows generalizing p with
  | nil => simp
  | cons r rest ih =>
      simp only [List.foldl_cons, List.map_cons, List.sum_cons, ih, Prod.mk.injEq]
      constructor <;> ring

/-- Claim C6, counterexample: with rows of sizes 1 and 3 and active
counts 1 and 0, `utilization()` returns `1/4` (ratio of totals) while
the mean of per-row ratios is `1/2`. -/
theorem C6_counterexample :
    Evaluator.utilization [⟨[0], 1, []⟩, ⟨[1, 2, 3], 0, []⟩] = 1 / 4 ∧
    specMeanUtilization [⟨[0], 1, []⟩, ⟨[1, 2, 3], 0, []⟩] = 1 / 2 ∧
    Evaluator.utilization [⟨[0], 1, []⟩, ⟨[1, 2, 3], 0, []⟩] ≠
      specMeanUtilization [⟨[0], 1, []⟩, ⟨[1, 2, 3], 0, []⟩] := by
  refine ⟨?_, ?_, ?_⟩ <;> norm_num [Evaluator.utilization, specMeanUtilization]

/-- Claim C6 (amended): `utilization()` returns (total active count) /
(total row size) — the ratio of totals, not the mean of per-row
ratios — and this lies in `[0, 1]` whenever each row's active count is
within its size and some row is nonempty. -/
theorem C6_utilization_bounds (rows : List ERow)
    (h1 : ∀ r ∈ rows, r.active ≤ r.clauses.length)
    (h2 : 0 < (rows.map (fun r => (r.clauses.length : ℚ))).sum) :
    Evaluator.utilization rows =
      (rows.map (fun r => (r.active : ℚ))).sum /
        (rows.map (fun r => (r.clauses.length : ℚ))).sum ∧
    0 ≤ Evaluator.utilization rows ∧ Evaluator.utilization rows ≤ 1 := by
  have he : Evaluator.utilization rows =
      (rows.map (fun r => (r.active : ℚ))).sum /
        (rows.map (fun r => (r.clauses.length : ℚ))).sum := by
    unfold Evaluator.utilization
    rw [util_foldl_sums]
    simp
  refine ⟨he, ?_, ?_⟩
  · rw [he]
    apply div_nonneg
    · apply List.sum_nonneg
      intro x hx
      obtain ⟨r, _, rfl⟩ := List.mem_map.mp hx
      positivity
    · exact le_of_lt h2
  · rw [he]
    rw [div_le_one h2]
    apply List.sum_le_sum
    intro r hr
    exact_mod_cast h1 r hr

/-- Witness for C6: one row of size 2 with one active clause gives
utilization 1/2. -/
theorem C6_utilization_bounds_witness :
    (∀ r ∈ [(⟨[0, 1], 1, []⟩ : ERow)], r.active ≤ r.clauses.length) ∧
    (0 : ℚ) <
      (([(⟨[0, 1], 1, []⟩ : ERow)]).map (fun r => (r.clauses.length : ℚ))).sum ∧
    (0 ≤ Evaluator.utilization [(⟨[0, 1], 1, []⟩ : ERow)] ∧
      Evaluator.utilization [(⟨[0, 1], 1, []⟩ : ERow)] ≤ 1) := by
  have h1 : ∀ r ∈ [(⟨[0, 1], 1, []⟩ : ERow)], r.active ≤ r.clauses.length := by
    intro r hr
    simp only [List.mem_singleton] at hr
    subst hr
    decide
  have h2 : (0 : ℚ) <
      (([(⟨[0, 1], 1, []⟩ : ERow)]).map (fun r => (r.clauses.length : ℚ))).sum := by
    norm_num
  exact ⟨h1, h2, (C6_utilization_bounds _ h1 h2).2⟩

/-- With a positive divisor, the truncating remainder lies strictly
between `-b` and `b`. -/
lemma fmodQ_bounds {a b : ℚ} (hb : 0 < b) : -b < fmodQ a b ∧ fmodQ a b < b := by
  have hbne : b ≠ 0 := ne_of_gt hb
  have hbq : b * (a / b) = a := by field_simp
  unfold fmodQ ratTrunc
  by_cases h : 0 ≤ a / b
  · rw [if_pos h]
    have h1 : (⌊a / b⌋ : ℚ) ≤ a / b := Int.floor_le _
    have h2 : a / b < ⌊a / b⌋ + 1 := Int.lt_floor_add_one _
    constructor <;> nlinarith
  · rw [if_neg h]
    push_neg at h
    have h1 : (⌊-(a / b)⌋ : ℚ) ≤ -(a / b) := Int.floor_le _
    have h2 : -(a / b) < ⌊-(a / b)⌋ + 1 := Int.lt_floor_add_one _
    push_cast
    constructor <;> nlinarith

/-- Claim C10: with a strictly positive divisor the MOD adjustment loop
terminates (any fuel of at least 1 — i.e. at most one pass — yields the
same value the kernel computes) and the result lies in `[0, b)`. -/
theorem C10_mod_range (a b : ℚ) (hb : 0 < b) (fuel : ℕ) (hf : 1 ≤ fuel) :
    ∃ out, clauseValue .MOD a b = some out ∧
      modLoop b fuel (fmodQ a b) = some out ∧ 0 ≤ out ∧ out < b := by
  obtain ⟨hgt, hlt⟩ := fmodQ_bounds (a := a) hb
  obtain ⟨f, rfl⟩ : ∃ f, fuel = f + 1 := ⟨fuel - 1, by omega⟩
  by_cases h0 : fmodQ a b < 0
  · have hstop : ¬ fmodQ a b + b < 0 := by linarith
    refine ⟨fmodQ a b + b, ?_, ?_, by linarith, by linarith⟩
    · show modLoop b 2 (fmodQ a b) = _
      simp [modLoop.eq_def, h0, hstop]
    · simp [modLoop.eq_def, h0, hstop]
  · refine ⟨fmodQ a b, ?_, ?_, not_lt.mp h0, hlt⟩
    · show modLoop b 2 (fmodQ a b) = _
      simp [modLoop.eq_def, h0]
    · simp [modLoop.eq_def, h0]

/-- Witness for C10: `a = -5`, `b = 3` gives remainder `1 ∈ [0, 3)`. -/
theorem C10_mod_range_witness :
    (0 : ℚ) < 3 ∧ 1 ≤ 2 ∧
    (∃ out, clauseValue .MOD (-5) 3 = some out ∧
      modLoop 3 2 (fmodQ (-5) 3) = some out ∧ 0 ≤ out ∧ out < 3) :=
  ⟨by norm_num, by norm_num, C10_mod_range (-5) 3 (by norm_num) 2 (by norm_num)⟩

/-- The batched scalar value kernel, one result buffer as a function of
the operand buffers: `EVAL_LOOP out[i] = f(a[i], b[i])` — each output
element is the scalar kernel of the operand elements at the same index.
A missing operand pointer reads as a zero buffer (unary kernels ignore
that argument); `none` in a buffer marks an element whose MOD adjustment
loop does not terminate. -/
def laneK (op : Opcode) (a b : Option (ℕ → Option ℚ)) : ℕ → Option ℚ :=
  fun i =>
    match (a.getD (fun _ => some 0)) i, (b.getD (fun _ => some 0)) i with
    | some x, some y => clauseValue op x y
    | _, _ => none

/-- `Evaluator::values`: sweep the rows with the batched scalar value
kernel. -/
def Evaluator.valuesBatch (s : EState) (st : ℕ → ℕ → Option ℚ) :
    ℕ → ℕ → Option ℚ :=
  Evaluator.evalCall (ℕ → Option ℚ) laneK s st

/-- One clause step preserves agreement of two stores at a fixed batch
index. -/
lemma stepClause_agree (tape : ℕ → EClause) (dis : ℕ → Bool) (i : ℕ)
    (st₁ st₂ : ℕ → ℕ → Option ℚ) (h : ∀ j, st₁ j i = st₂ j i) (c : ℕ) :
    ∀ j, stepClause (ℕ → Option ℚ) laneK tape dis st₁ c j i =
      stepClause (ℕ → Option ℚ) laneK tape dis st₂ c j i := by
  intro j
  unfold stepClause laneK
  by_cases hj : j = c
  · simp only [hj, if_pos rfl]
    cases ha : (tape c).a <;> cases hb : (tape c).b <;>
      simp [Option.map_some, Option.map_none, Option.getD, h]
  · simp only [if_neg hj]
    exact h j

/-- Folding clause steps over any list preserves agreement at a fixed
batch index. -/
lemma foldl_step_agree (tape : ℕ → EClause) (dis : ℕ → Bool) (i : ℕ)
    (l : List ℕ) :
    ∀ st₁ st₂ : ℕ → ℕ → Option ℚ, (∀ j, st₁ j i = st₂ j i) →
      ∀ j, l.foldl (stepClause (ℕ → Option ℚ) laneK tape dis) st₁ j i =
        l.foldl (stepClause (ℕ → Option ℚ) laneK tape dis) st₂ j i := by
  induction l with
  | nil => intro st₁ st₂ h j; exact h j
  | cons c rest ih =>
      intro st₁ st₂ h j
      exact ih _ _ (stepClause_agree tape dis i st₁ st₂ h c) j

/-- Claim C8: elementwise independence of `values_batch` — if two input
stores agree at batch index `i` (on the X, Y, Z buffers and every other
clause buffer), the outputs agree at index `i` on every clause,
whatever the other indices hold. -/
theorem C8_lane_independence (s : EState) (st₁ st₂ : ℕ → ℕ → Option ℚ) (i : ℕ)
    (h : ∀ j, st₁ j i = st₂ j i) :
    ∀ j, Evaluator.valuesBatch s st₁ j i = Evaluator.valuesBatch s st₂ j i := by
  unfold Evaluator.valuesBatch Evaluator.evalCall runRows
  induction s.rows generalizing st₁ st₂ with
  | nil => exact h
  | cons r rest ih =>
      intro j
      simp only [List.foldl_cons]
      exact ih (runRow _ laneK s.tape (disabledB s) st₁ r)
        (runRow _ laneK s.tape (disabledB s) st₂ r)
        (foldl_step_agree s.tape (disabledB s) i _ st₁ st₂ h) j

/-- A small concrete evaluator: clause 3 adds clauses 0 and 1 (the X and
Y inputs), one row, root 3. -/
def sampleTape : ℕ → EClause :=
  fun i => if i = 3 then ⟨.ADD, some 0, some 1, .keepBoth⟩
           else ⟨.VAR_X, none, none, .keepBoth⟩

def sampleState : EState := ⟨sampleTape, [⟨[3], 1, []⟩], 3⟩

/-- Witness for C8: two input stores that agree at batch index 0 (and
differ elsewhere) produce the same root output at index 0. -/
theorem C8_lane_independence_witness :
    Evaluator.valuesBatch sampleState (fun j i => some ((j : ℚ) + i)) 3 0 =
      Evaluator.valuesBatch sampleState (fun j i => some ((j : ℚ) + i * i)) 3 0 :=
  C8_lane_independence sampleState _ _ 0 (fun j => by norm_num) 3

/-- Pop after push restores the active count. -/
lemma popPush_active (en : List ℕ) (r : ERow) :
    (popRow (pushRow en r)).active = r.active := rfl

/-- Pop after push restores the stack. -/
lemma popPush_stack (en : List ℕ) (r : ERow) :
    (popRow (pushRow en r)).stack = r.stack := rfl

lemma popPush_clauses (en : List ℕ) (r : ERow) :
    (popRow (pushRow en r)).clauses =
      (r.clauses.take r.active).filter (fun i => en.contains i) ++
        (r.clauses.take r.active).filter (fun i => !(en.contains i)) ++
        r.clauses.drop r.active := rfl

lemma popPush_filters_length (en : List ℕ) (r : ERow)
    (h : r.active ≤ r.clauses.length) :
    ((r.clauses.take r.active).filter (fun i => en.contains i) ++
      (r.clauses.take r.active).filter (fun i => !(en.contains i))).length =
      r.active := by
  have hperm :=
    List.filter_append_perm (fun i => en.contains i) (r.clauses.take r.active)
  rw [hperm.length_eq, List.length_take]
  omega

/-- The partitioned active prefix after pop is the old prefix,
permuted. -/
lemma popPush_take (en : List ℕ) (r : ERow) (h : r.active ≤ r.clauses.length) :
    (popRow (pushRow en r)).clauses.take r.active =
      (r.clauses.take r.active).filter (fun i => en.contains i) ++
        (r.clauses.take r.active).filter (fun i => !(en.contains i)) := by
  rw [popPush_clauses]
  exact List.take_left' (popPush_filters_length en r h)

/-- The clauses beyond the active prefix are untouched by push and
pop. -/
lemma popPush_drop (en : List ℕ) (r : ERow) (h : r.active ≤ r.clauses.length) :
    (popRow (pushRow en r)).clauses.drop r.active = r.clauses.drop r.active := by
  rw [popPush_clauses]
  exact List.drop_left' (popPush_filters_length en r h)

lemma rowWF_active_le {tape : ℕ → EClause} {r : ERow}
    (h : rowWF tape r = true) : r.active ≤ r.clauses.length := by
  unfold rowWF at h
  rw [Bool.and_eq_true] at h
  exact of_decide_eq_true h.1

/-- In a well-formed row, no clause of the active prefix has an operand
inside that prefix. -/
lemma rowWF_ops {tape : ℕ → EClause} {r : ERow} (h : rowWF tape r = true) :
    ∀ x ∈ r.clauses.take r.active, ∀ y ∈ r.clauses.take r.active,
      (tape x).a ≠ some y ∧ (tape x).b ≠ some y := by
  intro x hx y hy
  unfold rowWF at h
  rw [Bool.and_eq_true, List.all_eq_true] at h
  have hx2 := h.2 x hx
  rw [Bool.and_eq_true] at hx2
  constructor
  · intro hcon
    have ha := hx2.1
    rw [hcon] at ha
    simp only [Option.all_some, Bool.not_eq_true'] at ha
    simp at ha
    exact ha hy
  · intro hcon
    have hb := hx2.2
    rw [hcon] at hb
    simp only [Option.all_some, Bool.not_eq_true'] at hb
    simp at hb
    exact hb hy

lemma map_agree {V : Type} (o : Option ℕ) (f g : ℕ → V)
    (h : ∀ k, o = some k → f k = g k) : o.map f = o.map g := by
  cases o with
  | none => rfl
  | some k => simp [h k rfl]

/-- The kernel value computed for clause `i` over a store. -/
def clauseVal (V : Type) (K : Opcode → Option V → Option V → V)
    (tape : ℕ → EClause) (dis : ℕ → Bool) (st : ℕ → V) (i : ℕ) : V :=
  K (getOpcode (tape i).op ((tape i).a.map dis) ((tape i).b.map dis))
    ((tape i).a.map st) ((tape i).b.map st)

lemma stepClause_apply (V : Type) (K : Opcode → Option V → Option V → V)
    (tape : ℕ → EClause) (dis : ℕ → Bool) (st : ℕ → V) (i j : ℕ) :
    stepClause V K tape dis st i j =
      if j = i then clauseVal V K tape dis st i else st j := rfl

/-- A clause's kernel value is unchanged by a write to a clause that is
not one of its operands. -/
lemma clauseVal_step (V : Type) (K : Opcode → Option V → Option V → V)
    (tape : ℕ → EClause) (dis : ℕ → Bool) (st : ℕ → V) (x y : ℕ)
    (hay : (tape y).a ≠ some x) (hby : (tape y).b ≠ some x) :
    clauseVal V K tape dis (stepClause V K tape dis st x) y =
      clauseVal V K tape dis st y := by
  unfold clauseVal
  rw [map_agree ((tape y).a) _ st, map_agree ((tape y).b) _ st]
  · intro k hk
    have hkx : k ≠ x := fun he => hby (he ▸ hk)
    rw [stepClause_apply, if_neg hkx]
  · intro k hk
    have hkx : k ≠ x := fun he => hay (he ▸ hk)
    rw [stepClause_apply, if_neg hkx]

/-- Two clause steps on distinct clauses that are not each other's
operands commute. -/
lemma stepClause_comm (V : Type) (K : Opcode → Option V → Option V → V)
    (tape : ℕ → EClause) (dis : ℕ → Bool) (x y : ℕ) (hne : x ≠ y)
    (hay : (tape y).a ≠ some x) (hby : (tape y).b ≠ some x)
    (hax : (tape x).a ≠ some y) (hbx : (tape x).b ≠ some y) (st : ℕ → V) :
    stepClause V K tape dis (stepClause V K tape dis st x) y =
      stepClause V K tape dis (stepClause V K tape dis st y) x := by
  funext j
  rw [stepClause_apply, stepClause_apply, stepClause_apply, stepClause_apply]
  by_cases hjy : j = y
  · subst hjy
    rw [if_pos rfl, if_neg (Ne.symm hne), if_pos rfl]
    rw [clauseVal_step V K tape dis st x j hay hby]
  · by_cases hjx : j = x
    · subst hjx
      rw [if_neg hjy, if_pos rfl, if_pos rfl]
      rw [clauseVal_step V K tape dis st y j hax hbx]
    · rw [if_neg hjy, if_neg hjx, if_neg hjx, if_neg hjy]

/-- Evaluating a permutation of a well-formed row's active prefix gives
the same result store. -/
lemma foldl_perm_row (V : Type) (K : Opcode → Option V → Option V → V)
    (tape : ℕ → EClause) (dis : ℕ → Bool) (r : ERow)
    (hwf : rowWF tape r = true) (l : List ℕ)
    (hl : l.Perm (r.clauses.take r.active)) (st : ℕ → V) :
    l.foldl (stepClause V K tape dis) st =
      (r.clauses.take r.active).foldl (stepClause V K tape dis) st := by
  apply hl.foldl_eq'
  intro x hx y hy z
  by_cases hxy : x = y
  · subst hxy; rfl
  · have hx2 : x ∈ r.clauses.take r.active := hl.mem_iff.mp hx
    have hy2 : y ∈ r.clauses.take r.active := hl.mem_iff.mp hy
    obtain ⟨hax, hbx⟩ := rowWF_ops hwf x hx2 y hy2
    obtain ⟨hay, hby⟩ := rowWF_ops hwf y hy2 x hx2
    exact stepClause_comm V K tape dis x y hxy hay hby hax hbx z

/-- Push then pop leaves one row's evaluation unchanged. -/
lemma runRow_pushPop (V : Type) (K : Opcode → Option V → Option V → V)
    (tape : ℕ → EClause) (dis : ℕ → Bool) (en : List ℕ) (r : ERow)
    (hwf : rowWF tape r = true) (st : ℕ → V) :
    runRow V K tape dis st (popRow (pushRow en r)) = runRow V K tape dis st r := by
  have hle := rowWF_active_le hwf
  unfold runRow
  rw [popPush_active, popPush_take en r hle]
  exact foldl_perm_row V K tape dis r hwf _
    (List.filter_append_perm (fun i => en.contains i) (r.clauses.take r.active)) st

/-- Push then pop leaves every row's evaluation sweep unchanged. -/
lemma runRows_pushPop (V : Type) (K : Opcode → Option V → Option V → V)
    (tape : ℕ → EClause) (dis : ℕ → Bool) (en : List ℕ) (rows : List ERow)
    (hwf : rows.all (rowWF tape) = true) (st : ℕ → V) :
    runRows V K tape dis ((rows.map (pushRow en)).map popRow) st =
      runRows V K tape dis rows st := by
  rw [List.all_eq_true] at hwf
  unfold runRows
  rw [List.map_map]
  induction rows generalizing st with
  | nil => rfl
  | cons r rest ih =>
      simp only [List.map_cons, List.foldl_cons, Function.comp]
      rw [runRow_pushPop V K tape dis en r (hwf r (by simp)) st]
      exact ih (fun q hq => hwf q (by simp [hq])) _

lemma any_congr_mem {α : Type} {l : List α} {p q : α → Bool}
    (h : ∀ a ∈ l, p a = q a) : l.any p = l.any q := by
  induction l with
  | nil => rfl
  | cons a rest ih =>
      simp only [List.any_cons]
      rw [h a (by simp), ih (fun b hb => h b (by simp [hb]))]

/-- Push then pop leaves the disabled predicate unchanged: each row's
beyond-prefix segment is untouched and the active count is restored. -/
lemma disabledB_pushPop (s : EState) (hwf : stateWF s = true) :
    disabledB (Evaluator.pop (Evaluator.push s)) = disabledB s := by
  unfold stateWF at hwf
  rw [List.all_eq_true] at hwf
  funext i
  show ((s.rows.map (pushRow (enabledSet s))).map popRow).any
      (fun r => (r.clauses.drop r.active).contains i) =
    s.rows.any (fun r => (r.clauses.drop r.active).contains i)
  rw [List.map_map, List.any_map]
  apply any_congr_mem
  intro r hr
  have hle := rowWF_active_le (hwf r hr)
  show ((popRow (pushRow (enabledSet s) r)).clauses.drop
      (popRow (pushRow (enabledSet s) r)).active).contains i = _
  rw [popPush_active, popPush_drop (enabledSet s) r hle]

/-- Claim C2: push/pop transparency.  For every well-formed evaluator
state and every evaluation call — `V` and `K` range over the kernels of
`values_batch`, `derivs_batch`, `eval_point` (a batch of one) and
`eval_interval` — a `push()` immediately followed by `pop()` leaves the
call's result unchanged: pop restores each row's active count, the
partition only permuted the active prefix, and the beyond-prefix
segments (hence the disabled states) are untouched. -/
theorem C2_push_pop_transparent (V : Type) (K : Opcode → Option V → Option V → V)
    (s : EState) (hwf : stateWF s = true) (st : ℕ → V) :
    Evaluator.evalCall V K (Evaluator.pop (Evaluator.push s)) st
        (Evaluator.pop (Evaluator.push s)).root =
      Evaluator.evalCall V K s st s.root := by
  have hdis := disabledB_pushPop s hwf
  show runRows V K s.tape (disabledB (Evaluator.pop (Evaluator.push s)))
      ((s.rows.map (pushRow (enabledSet s))).map popRow) st s.root =
    runRows V K s.tape (disabledB s) s.rows st s.root
  rw [hdis]
  have hall : s.rows.all (rowWF s.tape) = true := hwf
  exact congrFun (runRows_pushPop V K s.tape (disabledB s) (enabledSet s)
    s.rows hall st) s.root

/-- Witness for C2: the sample evaluator, with the scalar sum kernel and
inputs `st j = j`, returns the same root value with and without a
push/pop pair. -/
theorem C2_push_pop_transparent_witness :
    stateWF sampleState = true ∧
    Evaluator.evalCall ℚ (fun _ a b => a.getD 0 + b.getD 0)
        (Evaluator.pop (Evaluator.push sampleState)) (fun j => (j : ℚ))
        (Evaluator.pop (Evaluator.push sampleState)).root =
      Evaluator.evalCall ℚ (fun _ a b => a.getD 0 + b.getD 0) sampleState
        (fun j => (j : ℚ)) sampleState.root :=
  ⟨by decide,
   C2_push_pop_transparent ℚ (fun _ a b => a.getD 0 + b.getD 0) sampleState
     (by decide) (fun j => (j : ℚ))⟩

/-!  ## Interval soundness lemmas -/

lemma mul_le_max2 {c bl b bh : ℚ} (h1 : bl ≤ b) (h2 : b ≤ bh) :
    c * b ≤ max (c * bl) (c * bh) := by
  rcases le_total 0 c with hc | hc
  · exact le_max_of_le_right (mul_le_mul_of_nonneg_left h2 hc)
  · exact le_max_of_le_left (mul_le_mul_of_nonpos_left h1 hc)

lemma min2_le_mul {c bl b bh : ℚ} (h1 : bl ≤ b) (h2 : b ≤ bh) :
    min (c * bl) (c * bh) ≤ c * b := by
  rcases le_total 0 c with hc | hc
  · exact min_le_of_left_le (mul_le_mul_of_nonneg_left h1 hc)
  · exact min_le_of_right_le (mul_le_mul_of_nonpos_left h2 hc)

lemma mul_le_max_left {al a ah b : ℚ} (h1 : al ≤ a) (h2 : a ≤ ah) :
    a * b ≤ max (al * b) (ah * b) := by
  rcases le_total 0 b with hb | hb
  · exact le_max_of_le_right (mul_le_mul_of_nonneg_right h2 hb)
  · exact le_max_of_le_left (mul_le_mul_of_nonpos_right h1 hb)

lemma min_left_le_mul {al a ah b : ℚ} (h1 : al ≤ a) (h2 : a ≤ ah) :
    min (al * b) (ah * b) ≤ a * b := by
  rcases le_total 0 b with hb | hb
  · exact min_le_of_left_le (mul_le_mul_of_nonneg_right h1 hb)
  · exact min_le_of_right_le (mul_le_mul_of_nonpos_right h2 hb)

/-- The four endpoint products bound any product of members. -/
lemma mul4_bounds {A B : Ivl} {a b : ℚ}
    (ha1 : A.lo ≤ a) (ha2 : a ≤ A.hi) (hb1 : B.lo ≤ b) (hb2 : b ≤ B.hi) :
    min (min (A.lo * B.lo) (A.lo * B.hi)) (min (A.hi * B.lo) (A.hi * B.hi)) ≤ a * b ∧
    a * b ≤
      max (max (A.lo * B.lo) (A.lo * B.hi)) (max (A.hi * B.lo) (A.hi * B.hi)) := by
  constructor
  · calc min (min (A.lo * B.lo) (A.lo * B.hi)) (min (A.hi * B.lo) (A.hi * B.hi))
        ≤ min (A.lo * b) (A.hi * b) :=
          min_le_min (min2_le_mul hb1 hb2) (min2_le_mul hb1 hb2)
      _ ≤ a * b := min_left_le_mul ha1 ha2
  · calc a * b ≤ max (A.lo * b) (A.hi * b) := mul_le_max_left ha1 ha2
      _ ≤ max (max (A.lo * B.lo) (A.lo * B.hi)) (max (A.hi * B.lo) (A.hi * B.hi)) :=
          max_le_max (mul_le_max2 hb1 hb2) (mul_le_max2 hb1 hb2)

/-- Generic lifting of a binary endpoint-bounds fact to interval
values. -/
lemma holds_liftI {f : Ivl → Ivl → Ivl} {g : ℚ → ℚ → ℚ}
    (hf : ∀ A B : Ivl, ∀ a b : ℚ, A.lo ≤ a → a ≤ A.hi → B.lo ≤ b → b ≤ B.hi →
      (f A B).lo ≤ g a b ∧ g a b ≤ (f A B).hi)
    {IA IB : IntervalQ} {a b : ℚ} (ha : IA.holds a) (hb : IB.holds b) :
    (liftI f IA IB).holds (g a b) := by
  cases IA with
  | none => cases IB <;> trivial
  | some A =>
      cases IB with
      | none => trivial
      | some B => exact hf A B a b ha.1 ha.2 hb.1 hb.2

/-- Generic lifting of a unary endpoint-bounds fact to interval
values. -/
lemma holds_map {f : Ivl → Ivl} {g : ℚ → ℚ}
    (hf : ∀ A : Ivl, ∀ a : ℚ, A.lo ≤ a → a ≤ A.hi → (f A).lo ≤ g a ∧ g a ≤ (f A).hi)
    {IA : IntervalQ} {a : ℚ} (ha : IA.holds a) :
    IntervalQ.holds (IA.map f) (g a) := by
  cases IA with
  | none => trivial
  | some A => exact hf A a ha.1 ha.2

lemma iAdd_mem (A B : Ivl) (a b : ℚ) (ha1 : A.lo ≤ a) (ha2 : a ≤ A.hi)
    (hb1 : B.lo ≤ b) (hb2 : b ≤ B.hi) :
    (iAdd A B).lo ≤ a + b ∧ a + b ≤ (iAdd A B).hi := by
  unfold iAdd
  constructor <;> simp <;> linarith

lemma iSub_mem (A B : Ivl) (a b : ℚ) (ha1 : A.lo ≤ a) (ha2 : a ≤ A.hi)
    (hb1 : B.lo ≤ b) (hb2 : b ≤ B.hi) :
    (iSub A B).lo ≤ a - b ∧ a - b ≤ (iSub A B).hi := by
  unfold iSub
  constructor <;> simp <;> linarith

lemma iMul_mem (A B : Ivl) (a b : ℚ) (ha1 : A.lo ≤ a) (ha2 : a ≤ A.hi)
    (hb1 : B.lo ≤ b) (hb2 : b ≤ B.hi) :
    (iMul A B).lo ≤ a * b ∧ a * b ≤ (iMul A B).hi :=
  mul4_bounds ha1 ha2 hb1 hb2

lemma iMin_mem (A B : Ivl) (a b : ℚ) (ha1 : A.lo ≤ a) (ha2 : a ≤ A.hi)
    (hb1 : B.lo ≤ b) (hb2 : b ≤ B.hi) :
    (iMin A B).lo ≤ min a b ∧ min a b ≤ (iMin A B).hi :=
  ⟨min_le_min ha1 hb1, min_le_min ha2 hb2⟩

lemma iMax_mem (A B : Ivl) (a b : ℚ) (ha1 : A.lo ≤ a) (ha2 : a ≤ A.hi)
    (hb1 : B.lo ≤ b) (hb2 : b ≤ B.hi) :
    (iMax A B).lo ≤ max a b ∧ max a b ≤ (iMax A B).hi :=
  ⟨max_le_max ha1 hb1, max_le_max ha2 hb2⟩

lemma iNeg_mem (A : Ivl) (a : ℚ) (ha1 : A.lo ≤ a) (ha2 : a ≤ A.hi) :
    (iNeg A).lo ≤ -a ∧ -a ≤ (iNeg A).hi := by
  unfold iNeg
  constructor <;> simp <;> linarith

lemma iAbs_mem (A : Ivl) (a : ℚ) (ha1 : A.lo ≤ a) (ha2 : a ≤ A.hi) :
    (iAbs A).lo ≤ |a| ∧ |a| ≤ (iAbs A).hi := by
  unfold iAbs
  by_cases h1 : 0 ≤ A.lo
  · rw [if_pos h1, abs_of_nonneg (le_trans h1 ha1)]
    exact ⟨ha1, ha2⟩
  · rw [if_neg h1]
    by_cases h2 : A.hi ≤ 0
    · rw [if_pos h2, abs_of_nonpos (le_trans ha2 h2)]
      constructor <;> simp <;> linarith
    · rw [if_neg h2]
      refine ⟨abs_nonneg a, ?_⟩
      rcases le_total 0 a with hc | hc
      · rw [abs_of_nonneg hc]
        exact le_max_of_le_right ha2
      · rw [abs_of_nonpos hc]
        exact le_max_of_le_left (by linarith)

lemma iSquare_mem (A : Ivl) (a : ℚ) (ha1 : A.lo ≤ a) (ha2 : a ≤ A.hi) :
    (iSquare A).lo ≤ a * a ∧ a * a ≤ (iSquare A).hi := by
  unfold iSquare
  by_cases h1 : 0 ≤ A.lo
  · rw [if_pos h1]
    constructor <;> dsimp only <;> nlinarith
  · rw [if_neg h1]
    by_cases h2 : A.hi ≤ 0
    · rw [if_pos h2]
      constructor <;> dsimp only <;> nlinarith
    · rw [if_neg h2]
      refine ⟨by dsimp only; nlinarith, ?_⟩
      dsimp only
      rcases le_total 0 a with hc | hc
      · exact le_max_of_le_right (by nlinarith)
      · exact le_max_of_le_left (by nlinarith)

/-- Division soundness: either the divisor straddles zero and the result
is the unbounded interval, or the four endpoint quotients bound the
quotient. -/
lemma iDiv_mem (A B : Ivl) (a b : ℚ) (ha1 : A.lo ≤ a) (ha2 : a ≤ A.hi)
    (hb1 : B.lo ≤ b) (hb2 : b ≤ B.hi) : (iDiv A B).holds (a / b) := by
  unfold iDiv
  by_cases hstr : B.lo ≤ 0 ∧ 0 ≤ B.hi
  · rw [if_pos hstr]
    trivial
  · rw [if_neg hstr]
    have hrec : 1 / B.hi ≤ 1 / b ∧ 1 / b ≤ 1 / B.lo := by
      rcases not_and_or.mp hstr with h | h
      · push_neg at h
        exact ⟨one_div_le_one_div_of_le (lt_of_lt_of_le h hb1) hb2,
               one_div_le_one_div_of_le h hb1⟩
      · push_neg at h
        exact ⟨one_div_le_one_div_of_neg_of_le h hb2,
               one_div_le_one_div_of_neg_of_le (lt_of_le_of_lt hb2 h) hb1⟩
    have hm := mul4_bounds (B := ⟨1 / B.hi, 1 / B.lo⟩) ha1 ha2 hrec.1 hrec.2
    simp only [div_eq_mul_one_div a b, div_eq_mul_one_div A.lo B.lo,
      div_eq_mul_one_div A.lo B.hi, div_eq_mul_one_div A.hi B.lo,
      div_eq_mul_one_div A.hi B.hi]
    constructor
    · refine le_trans (le_of_eq ?_) hm.1
      simp only [min_comm (A.lo * (1 / B.lo)) (A.lo * (1 / B.hi)),
        min_comm (A.hi * (1 / B.lo)) (A.hi * (1 / B.hi))]
    · refine le_trans hm.2 (le_of_eq ?_)
      simp only [max_comm (A.lo * (1 / B.hi)) (A.lo * (1 / B.lo)),
        max_comm (A.hi * (1 / B.hi)) (A.hi * (1 / B.lo))]

lemma holds_liftJ {f : Ivl → Ivl → IntervalQ} {g : ℚ → ℚ → ℚ}
    (hf : ∀ A B : Ivl, ∀ a b : ℚ, A.lo ≤ a → a ≤ A.hi → B.lo ≤ b → b ≤ B.hi →
      (f A B).holds (g a b))
    {IA IB : IntervalQ} {a b : ℚ} (ha : IA.holds a) (hb : IB.holds b) :
    IntervalQ.holds (liftJ f IA IB) (g a b) := by
  cases IA with
  | none => cases IB <;> trivial
  | some A =>
      cases IB with
      | none => trivial
      | some B => exact hf A B a b ha.1 ha.2 hb.1 hb.2

lemma bind2_eq_some {oa ob : Option ℚ} {f : ℚ → ℚ → Option ℚ} {v : ℚ}
    (h : (oa.bind fun va => ob.bind fun vb => f va vb) = some v) :
    ∃ va vb, oa = some va ∧ ob = some vb ∧ f va vb = some v := by
  cases oa with
  | none => simp at h
  | some va =>
      cases ob with
      | none => simp at h
      | some vb => exact ⟨va, vb, rfl, rfl, by simpa using h⟩

lemma bind1_eq_some {oa : Option ℚ} {f : ℚ → Option ℚ} {v : ℚ}
    (h : oa.bind f = some v) : ∃ va, oa = some va ∧ f va = some v := by
  cases oa with
  | none => simp at h
  | some va => exact ⟨va, rfl, by simpa using h⟩

/-- Claim C1 (amended): interval soundness over the arithmetic opcodes,
for trees containing no MOD node — for every interval input and every
point inside it, the scalar result (when the evaluation terminates) lies
in the interval result. -/
theorem C1_interval_soundness (t : ATree) (ht : noModT t = true)
    (ix iy iz : IntervalQ) (x y z : ℚ)
    (hx : ix.holds x) (hy : iy.holds y) (hz : iz.holds z) :
    ∀ v : ℚ, evalPoint t x y z = some v → (evalIval t ix iy iz).holds v := by
  induction t with
  | X =>
      intro v hv
      simp only [evalPoint, Option.some_inj] at hv
      exact hv ▸ hx
  | Y =>
      intro v hv
      simp only [evalPoint, Option.some_inj] at hv
      exact hv ▸ hy
  | Z =>
      intro v hv
      simp only [evalPoint, Option.some_inj] at hv
      exact hv ▸ hz
  | const c =>
      intro v hv
      simp only [evalPoint, Option.some_inj] at hv
      subst hv
      exact ⟨le_refl _, le_refl _⟩
  | add a b iha ihb =>
      simp only [noModT, Bool.and_eq_true] at ht
      intro v hv
      simp only [evalPoint] at hv
      obtain ⟨va, vb, hva, hvb, hf⟩ := bind2_eq_some hv
      simp only [clauseValue, Option.some_inj] at hf
      subst hf
      exact holds_liftI iAdd_mem (iha ht.1 va hva) (ihb ht.2 vb hvb)
  | sub a b iha ihb =>
      simp only [noModT, Bool.and_eq_true] at ht
      intro v hv
      simp only [evalPoint] at hv
      obtain ⟨va, vb, hva, hvb, hf⟩ := bind2_eq_some hv
      simp only [clauseValue, Option.some_inj] at hf
      subst hf
      exact holds_liftI iSub_mem (iha ht.1 va hva) (ihb ht.2 vb hvb)
  | mul a b iha ihb =>
      simp only [noModT, Bool.and_eq_true] at ht
      intro v hv
      simp only [evalPoint] at hv
      obtain ⟨va, vb, hva, hvb, hf⟩ := bind2_eq_some hv
      simp only [clauseValue, Option.some_inj] at hf
      subst hf
      exact holds_liftI iMul_mem (iha ht.1 va hva) (ihb ht.2 vb hvb)
  | minT a b iha ihb =>
      simp only [noModT, Bool.and_eq_true] at ht
      intro v hv
      simp only [evalPoint] at hv
      obtain ⟨va, vb, hva, hvb, hf⟩ := bind2_eq_some hv
      simp only [clauseValue, Option.some_inj] at hf
      subst hf
      exact holds_liftI iMin_mem (iha ht.1 va hva) (ihb ht.2 vb hvb)
  | maxT a b iha ihb =>
      simp only [noModT, Bool.and_eq_true] at ht
      intro v hv
      simp only [evalPoint] at hv
      obtain ⟨va, vb, hva, hvb, hf⟩ := bind2_eq_some hv
      simp only [clauseValue, Option.some_inj] at hf
      subst hf
      exact holds_liftI iMax_mem (iha ht.1 va hva) (ihb ht.2 vb hvb)
  | div a b iha ihb =>
      simp only [noModT, Bool.and_eq_true] at ht
      intro v hv
      simp only [evalPoint] at hv
      obtain ⟨va, vb, hva, hvb, hf⟩ := bind2_eq_some hv
      simp only [clauseValue, Option.some_inj] at hf
      subst hf
      exact holds_liftJ iDiv_mem (iha ht.1 va hva) (ihb ht.2 vb hvb)
  | mod a b iha ihb =>
      simp only [noModT] at ht
      exact absurd ht (by decide)
  | nanfill a b iha ihb =>
      simp only [noModT, Bool.and_eq_true] at ht
      intro v hv
      simp only [evalPoint] at hv
      obtain ⟨va, vb, hva, hvb, hf⟩ := bind2_eq_some hv
      simp only [clauseValue, Option.some_inj] at hf
      subst hf
      exact iha ht.1 va hva
  | neg a iha =>
      simp only [noModT] at ht
      intro v hv
      simp only [evalPoint] at hv
      obtain ⟨va, hva, hf⟩ := bind1_eq_some hv
      simp only [clauseValue, Option.some_inj] at hf
      subst hf
      exact holds_map iNeg_mem (iha ht va hva)
  | abs a iha =>
      simp only [noModT] at ht
      intro v hv
      simp only [evalPoint] at hv
      obtain ⟨va, hva, hf⟩ := bind1_eq_some hv
      simp only [clauseValue, Option.some_inj] at hf
      subst hf
      exact holds_map iAbs_mem (iha ht va hva)
  | square a iha =>
      simp only [noModT] at ht
      intro v hv
      simp only [evalPoint] at hv
      obtain ⟨va, hva, hf⟩ := bind1_eq_some hv
      simp only [clauseValue, Option.some_inj] at hf
      subst hf
      exact holds_map iSquare_mem (iha ht va hva)

/-- Claim C1, counterexample: the MOD clause breaks interval soundness.
For `mod(X, -3)` with `X ∈ [5,5]`, the scalar kernel yields
`fmod(5,-3) = 2`, but the interval kernel yields the (inverted) interval
`(0, -3)`, which does not contain 2. -/
theorem C1_counterexample :
    IntervalQ.holds (some ⟨5, 5⟩) 5 ∧ IntervalQ.holds (some ⟨0, 0⟩) 0 ∧
    evalPoint (.mod .X (.const (-3))) 5 0 0 = some 2 ∧
    evalIval (.mod .X (.const (-3))) (some ⟨5, 5⟩) (some ⟨0, 0⟩) (some ⟨0, 0⟩) =
      some ⟨0, -3⟩ ∧
    ¬ IntervalQ.holds
        (evalIval (.mod .X (.const (-3))) (some ⟨5, 5⟩) (some ⟨0, 0⟩)
          (some ⟨0, 0⟩)) 2 := by
  refine ⟨by decide, by decide,
    by norm_num [evalPoint, clauseValue, modLoop, fmodQ, ratTrunc],
    by decide, by decide⟩

/-- Witness for C1: `x + 1` over `x ∈ [0,2]` at the point `x = 1`. -/
theorem C1_interval_soundness_witness :
    noModT (.add .X (.const 1)) = true ∧
    IntervalQ.holds (some ⟨0, 2⟩) 1 ∧
    evalPoint (.add .X (.const 1)) 1 0 0 = some 2 ∧
    IntervalQ.holds
      (evalIval (.add .X (.const 1)) (some ⟨0, 2⟩) (some ⟨0, 0⟩) (some ⟨0, 0⟩)) 2 :=
  ⟨by decide, by decide, by norm_num [evalPoint, clauseValue],
   C1_interval_soundness (.add .X (.const 1)) (by decide) (some ⟨0, 2⟩)
     (some ⟨0, 0⟩) (some ⟨0, 0⟩) 1 0 0 (by decide) (by decide) (by decide) 2
     (by norm_num [evalPoint, clauseValue])⟩
